import Mathlib

/-!
Verification development for the QTransfer repository.

The development shallowly embeds the correctness-sensitive parts of the
repository:

* `src/backend/app/utils/security.py` — HKDF-SHA-256 key derivation,
  AES-256-GCM chunk encryption/decryption, key fingerprinting;
* `src/backend/app/api/files.py` — the chunked file encryption
  (`upload_file`) and decryption (`download_file_content`) loops and the
  on-disk container format;
* `src/qiskit-service/app/main.py` — the analytic BB84 simulator
  (`simulate_bb84_analytic`);
* `src/backend/app/api/qkd.py` — the QKD result endpoint's recomputation
  of `eve_detected`.

Bytes are modelled as natural numbers (values kept below 256 by all
byte-producing operations), machine words as naturals reduced modulo the
word size, Python floats as rationals, and the simulator's randomness as
an explicit oracle of streams.
-/

namespace QT

/-- Split a list into consecutive chunks of `n` elements; the final chunk
may be shorter.  This mirrors the Python read loops
`while True: chunk = f.read(n); if not chunk: break` in
`src/backend/app/api/files.py`. -/
def chunksOfAux (n : Nat) : Nat → List α → List (List α)
  | 0, _ => []
  | _ + 1, [] => []
  | fuel + 1, a :: as => (a :: as).take n :: chunksOfAux n fuel ((a :: as).drop n)

def chunksOf (n : Nat) (l : List α) : List (List α) :=
  if n = 0 then [] else chunksOfAux n l.length l

/-- Shape of a chunk list: all chunks but the last have length exactly
`n`, the last is nonempty and no longer than `n`. -/
def chunkShape (n : Nat) : List (List α) → Prop
  | [] => True
  | [c] => 0 < c.length ∧ c.length ≤ n
  | c :: c' :: rest => c.length = n ∧ chunkShape n (c' :: rest)

/-! ### Byte-level utilities -/
/-- Pointwise XOR of two byte lists (truncating to the shorter one, as
Python's `bytes` operations over zipped streams would). -/
def zipXor (a b : List Nat) : List Nat :=
  List.zipWith (fun x y => x ^^^ y) a b

/-- Big-endian interpretation of a byte list as a natural number. -/
def bytesToNat (bs : List Nat) : Nat :=
  bs.foldl (fun acc b => 256 * acc + b) 0

/-- Big-endian 16-byte serialisation of a 128-bit block value. -/
def natToBytes16 (x : Nat) : List Nat :=
  [x / 2 ^ 120 % 256, x / 2 ^ 112 % 256, x / 2 ^ 104 % 256, x / 2 ^ 96 % 256,
   x / 2 ^ 88 % 256, x / 2 ^ 80 % 256, x / 2 ^ 72 % 256, x / 2 ^ 64 % 256,
   x / 2 ^ 56 % 256, x / 2 ^ 48 % 256, x / 2 ^ 40 % 256, x / 2 ^ 32 % 256,
   x / 2 ^ 24 % 256, x / 2 ^ 16 % 256, x / 2 ^ 8 % 256, x % 256]

/-! ### AES-256 block cipher (FIPS 197), as used by the `cryptography`
library underneath `QuantumCrypto.encrypt_chunk` / `decrypt_chunk`. -/
/-- Multiplication by `x` in GF(2^8) modulo `x^8 + x^4 + x^3 + x + 1`. -/
def xtime (b : Nat) : Nat :=
  if b < 128 then 2 * b else (2 * b) ^^^ 0x11b

/-- GF(2^8) product (Russian-peasant multiplication with reduction). -/
def gf8mul (a b : Nat) : Nat :=
  (List.range 8).foldl
    (fun acc i => if b / 2 ^ i % 2 = 1 then acc ^^^ (List.range i).foldl (fun v _ => xtime v) a else acc)
    0

/-- GF(2^8) exponentiation. -/
def gf8pow (a : Nat) : Nat → Nat
  | 0 => 1
  | n + 1 => gf8mul a (gf8pow a n)

/-- Rotate the low 8 bits of `b` left by `k`. -/
def rotl8 (b k : Nat) : Nat :=
  (b * 2 ^ k + b / 2 ^ (8 - k)) % 256

/-- The AES S-box, computed from its definition: multiplicative inverse
in GF(2^8) followed by the affine transformation. -/
def sboxByte (x : Nat) : Nat :=
  let inv := if x % 256 = 0 then 0 else gf8pow (x % 256) 254
  inv ^^^ rotl8 inv 1 ^^^ rotl8 inv 2 ^^^ rotl8 inv 3 ^^^ rotl8 inv 4 ^^^ 0x63

/-- AES round constants: `rconByte i` is `x^i` in GF(2^8). -/
def rconByte : Nat → Nat
  | 0 => 1
  | n + 1 => xtime (rconByte n)

def subWord (w : List Nat) : List Nat := w.map sboxByte

def rotWord (w : List Nat) : List Nat := w.drop 1 ++ w.take 1

/-- AES-256 key-schedule step: produce word `i` (for `8 ≤ i`) given the
accumulated words in reverse order. -/
def ksWord (i : Nat) (acc : List (List Nat)) : List Nat :=
  let prev := acc.getD 0 []
  let old := acc.getD 7 []
  let t :=
    if i % 8 = 0 then
      zipXor (subWord (rotWord prev)) [rconByte (i / 8 - 1), 0, 0, 0]
    else if i % 8 = 4 then subWord prev
    else prev
  zipXor old t

def ksAux : Nat → Nat → List (List Nat) → List (List Nat)
  | 0, _, acc => acc
  | n + 1, i, acc => ksAux n (i + 1) (ksWord i acc :: acc)

/-- The 15 AES-256 round keys (16 bytes each) from a 32-byte key. -/
def roundKeys (key : List Nat) : List (List Nat) :=
  chunksOf 16 ((ksAux 52 8 (chunksOf 4 key).reverse).reverse.flatten)

def subBytes (st : List Nat) : List Nat := st.map sboxByte

/-- ShiftRows on the 16-byte column-major AES state. -/
def shiftRows (st : List Nat) : List Nat :=
  [0, 5, 10, 15, 4, 9, 14, 3, 8, 13, 2, 7, 12, 1, 6, 11].map (fun i => st.getD i 0)

/-- MixColumns applied to a single 4-byte column. -/
def mixCol : List Nat → List Nat
  | [a, b, c, d] =>
      [xtime a ^^^ (xtime b ^^^ b) ^^^ c ^^^ d,
       a ^^^ xtime b ^^^ (xtime c ^^^ c) ^^^ d,
       a ^^^ b ^^^ xtime c ^^^ (xtime d ^^^ d),
       (xtime a ^^^ a) ^^^ b ^^^ c ^^^ xtime d]
  | other => other

def mixColumns (st : List Nat) : List Nat :=
  ((chunksOf 4 st).map mixCol).flatten

def addRoundKey (st rk : List Nat) : List Nat := zipXor st rk

/-- One middle AES round. -/
def aesRound (rk st : List Nat) : List Nat :=
  addRoundKey (mixColumns (shiftRows (subBytes st))) rk

/-- AES-256 encryption of a 16-byte block under the expanded round keys. -/
def aesEncryptBytes (rks : List (List Nat)) (block : List Nat) : List Nat :=
  let st0 := addRoundKey block (rks.getD 0 [])
  let stMid := (List.range 13).foldl (fun st r => aesRound (rks.getD (r + 1) []) st) st0
  addRoundKey (shiftRows (subBytes stMid)) (rks.getD 14 [])

/-- AES-256 as a function on 128-bit block values. -/
def aesEncNat (key : List Nat) (block : Nat) : Nat :=
  bytesToNat (aesEncryptBytes (roundKeys key) (natToBytes16 block))

/-! ### GCM mode (NIST SP 800-38D), as used by
`Cipher(algorithms.AES(key), modes.GCM(nonce))` in
`src/backend/app/utils/security.py`. -/
/-- One step of the GF(2^128) block multiplication: `v` is halved (i.e.
multiplied by `x` in the reflected representation), folding in the
reduction polynomial `R = 0xE1 << 120` when a bit falls off. -/
def gmulHalf (v : Nat) : Nat :=
  if v % 2 = 1 then (v / 2) ^^^ (0xE1 <<< 120) else v / 2

/-- Shift-and-add GF(2^128) multiplication loop over the bits of `x`
(most significant first). -/
def gmulAux : Nat → Nat → Nat → Nat → Nat
  | 0, _, _, z => z
  | n + 1, v, x, z =>
      gmulAux n (gmulHalf v) x (if x / 2 ^ n % 2 = 1 then z ^^^ v else z)

/-- GCM's GF(2^128) block product. -/
def gmul128 (x y : Nat) : Nat := gmulAux 128 y x 0

/-- A (possibly short, at most 16-byte) chunk of data as a zero-padded
128-bit block. -/
def padBlockNat (c : List Nat) : Nat :=
  bytesToNat c * 2 ^ (8 * (16 - c.length))

/-- GHASH over the ciphertext (the backend passes no associated data),
including the final length block. -/
def ghashNat (h : Nat) (ct : List Nat) : Nat :=
  let y := ((chunksOf 16 ct).map padBlockNat).foldl (fun y b => gmul128 (y ^^^ b) h) 0
  gmul128 (y ^^^ 8 * ct.length) h

/-- The pre-counter block `J0` for a 12-byte nonce. -/
def j0Nat (nonce : List Nat) : Nat := bytesToNat nonce * 2 ^ 32 + 1

/-- Counter block for data block `i` (the low 32 bits of `J0` are
incremented `i + 1` times, modulo `2^32`). -/
def ctrBlockNat (nonce : Nat) (i : Nat) : Nat :=
  nonce / 2 ^ 32 * 2 ^ 32 + (nonce % 2 ^ 32 + 1 + i) % 2 ^ 32

/-- The CTR keystream of `len` bytes used by GCM for the data. -/
def keystream (key nonce : List Nat) (len : Nat) : List Nat :=
  (((List.range ((len + 15) / 16)).map
      (fun i => natToBytes16 (aesEncNat key (ctrBlockNat (j0Nat nonce) i)))).flatten).take len

/-- The 16-byte GCM authentication tag for ciphertext `ct`. -/
def gcmTagBytes (key nonce ct : List Nat) : List Nat :=
  natToBytes16 (ghashNat (aesEncNat key 0) ct ^^^ aesEncNat key (j0Nat nonce))

/-! ### `QuantumCrypto.encrypt_chunk` / `decrypt_chunk`
(`src/backend/app/utils/security.py`, lines 22–38): AES-GCM of one chunk;
the encryptor returns `tag + ciphertext`, the decryptor splits the first
16 bytes off as the tag and raises `InvalidTag` (the `AuthenticationError`
of the spec) if verification fails. -/
inductive CryptoError where
  | authenticationError
deriving DecidableEq

def encrypt_chunk (data key nonce : List Nat) : List Nat :=
  let ct := zipXor data (keystream key nonce data.length)
  gcmTagBytes key nonce ct ++ ct

def decrypt_chunk (enc key nonce : List Nat) : Except CryptoError (List Nat) :=
  let tag := enc.take 16
  let ct := enc.drop 16
  if gcmTagBytes key nonce ct = tag then
    Except.ok (zipXor ct (keystream key nonce ct.length))
  else
    Except.error CryptoError.authenticationError

/-! ### The encrypted-file container
(`upload_file` and `download_file_content` in
`src/backend/app/api/files.py`).

`upload_file` generates one 12-byte nonce (`QuantumCrypto.generate_nonce`,
line 96), writes it as the file header (line 102), and then encrypts
every 65536-byte plaintext chunk with `QuantumCrypto.encrypt_chunk(...,
aes_key, nonce)` (line 121) — the same `nonce` variable on every loop
iteration.  `download_file_content` reads a 12-byte nonce header
(line 357) and decrypts consecutive records of 65536 + 16 bytes
(line 367) under that same nonce. -/
/-- The nonce under which chunk index `c` is encrypted by `upload_file`:
the loop body passes the single per-file `nonce` variable unchanged, so
the chunk index is ignored. -/
def chunkNonce (nonce : List Nat) (_c : Nat) : List Nat := nonce

/-- The encrypted records produced by the `upload_file` loop, in stream
order. -/
def encChunks (key nonce p : List Nat) : List (List Nat) :=
  (chunksOf 65536 p).map (fun c => encrypt_chunk c key nonce)

/-- The byte content of the `.enc` container written by `upload_file`:
the 12-byte nonce header followed by the encrypted records. -/
def upload_file_encrypt (key nonce p : List Nat) : List Nat :=
  nonce ++ (encChunks key nonce p).flatten

/-- The decryption loop of `download_file_content`: each record is
decrypted in order; a failed AEAD verification raises, aborting the
whole loop, and the successful outputs are concatenated. -/
def decryptLoop (key nonce : List Nat) : List (List Nat) → Except CryptoError (List Nat)
  | [] => Except.ok []
  | c :: cs =>
      match decrypt_chunk c key nonce with
      | Except.error e => Except.error e
      | Except.ok d =>
          match decryptLoop key nonce cs with
          | Except.error e => Except.error e
          | Except.ok rest => Except.ok (d ++ rest)

/-- `download_file_content`'s decryption of a container: read the
12-byte nonce header, then decrypt records of 65536 + 16 bytes. -/
def download_file_decrypt (key container : List Nat) : Except CryptoError (List Nat) :=
  decryptLoop key (container.take 12) (chunksOf 65552 (container.drop 12))

/-! ### Tampering with a container -/
/-- Flip bit `b` of the byte at position `j` of a byte list. -/
def flipBitOfByte (l : List Nat) (j b : Nat) : List Nat :=
  l.set j ((l.getD j 0) ^^^ (1 <<< b))

/-- The AEAD verification check on a record fails: the tag recomputed
over the record's ciphertext differs from its stored tag. -/
def authFails (key nonce c : List Nat) : Prop :=
  gcmTagBytes key nonce (c.drop 16) ≠ c.take 16

/-- Position `m` (an offset into the concatenated records) hits a record
whose AEAD verification fails once bit `b` of the byte at `m` is
flipped. -/
def tamperDetected (key nonce : List Nat) : List (List Nat) → Nat → Nat → Prop
  | [], _, _ => False
  | c :: cs, m, b =>
      if m < c.length then authFails key nonce (flipBitOfByte c m b)
      else tamperDetected key nonce cs (m - c.length) b

/-! ### SHA-256 (FIPS 180-4), HMAC and HKDF, underlying
`QuantumCrypto.derive_aes_key` and `generate_key_fingerprint`
(`src/backend/app/utils/security.py`, lines 8–20 and 40–43). -/
def w32 (x : Nat) : Nat := x % 4294967296

def rotr32 (x n : Nat) : Nat := w32 (x / 2 ^ n + x % 2 ^ n * 2 ^ (32 - n))

def sha256K : List Nat :=
  [1116352408, 1899447441, 3049323471, 3921009573, 961987163,
   1508970993, 2453635748, 2870763221, 3624381080, 310598401,
   607225278, 1426881987, 1925078388, 2162078206, 2614888103,
   3248222580, 3835390401, 4022224774, 264347078, 604807628,
   770255983, 1249150122, 1555081692, 1996064986, 2554220882,
   2821834349, 2952996808, 3210313671, 3336571891, 3584528711,
   113926993, 338241895, 666307205, 773529912, 1294757372,
   1396182291, 1695183700, 1986661051, 2177026350, 2456956037,
   2730485921, 2820302411, 3259730800, 3345764771, 3516065817,
   3600352804, 4094571909, 275423344, 430227734, 506948616,
   659060556, 883997877, 958139571, 1322822218, 1537002063,
   1747873779, 1955562222, 2024104815, 2227730452, 2361852424,
   2428436474, 2756734187, 3204031479, 3329325298]

def sha256H0 : List Nat :=
  [1779033703, 3144134277, 1013904242, 2773480762, 1359893119,
   2600822924, 528734635, 1541459225]

/-- Extend the 16 message words to 64, carrying the schedule in reverse
order. -/
def sha256ExtendRev : Nat → List Nat → List Nat
  | 0, acc => acc
  | n + 1, acc =>
      let w15 := acc.getD 14 0
      let w2 := acc.getD 1 0
      let s0 := rotr32 w15 7 ^^^ rotr32 w15 18 ^^^ w15 / 2 ^ 3
      let s1 := rotr32 w2 17 ^^^ rotr32 w2 19 ^^^ w2 / 2 ^ 10
      sha256ExtendRev n (w32 (acc.getD 15 0 + s0 + acc.getD 6 0 + s1) :: acc)

def sha256Schedule (block : List Nat) : List Nat :=
  (sha256ExtendRev 48 ((chunksOf 4 block).map bytesToNat).reverse).reverse

/-- One SHA-256 round; `kw` is `K_t + W_t`. -/
def sha256Round (st : List Nat) (kw : Nat) : List Nat :=
  let a := st.getD 0 0
  let b := st.getD 1 0
  let c := st.getD 2 0
  let d := st.getD 3 0
  let e := st.getD 4 0
  let f := st.getD 5 0
  let g := st.getD 6 0
  let hh := st.getD 7 0
  let s1 := rotr32 e 6 ^^^ rotr32 e 11 ^^^ rotr32 e 25
  let ch := (e &&& f) ^^^ ((e ^^^ 4294967295) &&& g)
  let t1 := w32 (hh + s1 + ch + kw)
  let s0 := rotr32 a 2 ^^^ rotr32 a 13 ^^^ rotr32 a 22
  let maj := (a &&& b) ^^^ (a &&& c) ^^^ (b &&& c)
  let t2 := w32 (s0 + maj)
  [w32 (t1 + t2), a, b, c, w32 (d + t1), e, f, g]

def addStates (x y : List Nat) : List Nat :=
  [w32 (x.getD 0 0 + y.getD 0 0), w32 (x.getD 1 0 + y.getD 1 0),
   w32 (x.getD 2 0 + y.getD 2 0), w32 (x.getD 3 0 + y.getD 3 0),
   w32 (x.getD 4 0 + y.getD 4 0), w32 (x.getD 5 0 + y.getD 5 0),
   w32 (x.getD 6 0 + y.getD 6 0), w32 (x.getD 7 0 + y.getD 7 0)]

def sha256Compress (st block : List Nat) : List Nat :=
  let ws := sha256Schedule block
  addStates st ((sha256K.zip ws).foldl (fun s kw => sha256Round s (w32 (kw.1 + kw.2))) st)

def be4 (x : Nat) : List Nat := [x / 2 ^ 24 % 256, x / 2 ^ 16 % 256, x / 2 ^ 8 % 256, x % 256]

def be8 (x : Nat) : List Nat :=
  [x / 2 ^ 56 % 256, x / 2 ^ 48 % 256, x / 2 ^ 40 % 256, x / 2 ^ 32 % 256,
   x / 2 ^ 24 % 256, x / 2 ^ 16 % 256, x / 2 ^ 8 % 256, x % 256]

def stateBytes (st : List Nat) : List Nat :=
  be4 (st.getD 0 0) ++ be4 (st.getD 1 0) ++ be4 (st.getD 2 0) ++ be4 (st.getD 3 0) ++
  be4 (st.getD 4 0) ++ be4 (st.getD 5 0) ++ be4 (st.getD 6 0) ++ be4 (st.getD 7 0)

def sha256 (msg : List Nat) : List Nat :=
  let padded := msg ++ 128 :: (List.replicate ((119 - msg.length % 64) % 64) 0 ++ be8 (8 * msg.length))
  stateBytes ((chunksOf 64 padded).foldl sha256Compress sha256H0)

/-- HMAC-SHA-256 (RFC 2104): 64-byte block size, `0x36`/`0x5c` pads. -/
def hmacSha256 (key msg : List Nat) : List Nat :=
  let k0 := if 64 < key.length then sha256 key else key
  let kp := k0 ++ List.replicate (64 - k0.length) 0
  sha256 ((kp.map (fun b => b ^^^ 92)) ++ sha256 ((kp.map (fun b => b ^^^ 54)) ++ msg))

/-- The HKDF-Expand block loop (RFC 5869): `T(i) = HMAC(prk, T(i-1) ‖
info ‖ [i])`. -/
def hkdfBlocks (prk info : List Nat) : Nat → Nat → List Nat → List Nat → List Nat
  | 0, _, _, acc => acc
  | n + 1, i, tPrev, acc =>
      let t := hmacSha256 prk (tPrev ++ info ++ [i])
      hkdfBlocks prk info n (i + 1) t (acc ++ t)

/-- HKDF-SHA-256 extract-then-expand, as performed by
`cryptography.hazmat.primitives.kdf.hkdf.HKDF(...).derive(ikm)`. -/
def hkdfSha256 (ikm salt info : List Nat) (len : Nat) : List Nat :=
  let prk := hmacSha256 salt ikm
  (hkdfBlocks prk info ((len + 31) / 32) 1 [] []).take len

/-! ### Hex and UTF-8 codecs -/
def hexVal (c : Char) : Option Nat :=
  let n := c.toNat
  if 48 ≤ n ∧ n ≤ 57 then some (n - 48)
  else if 97 ≤ n ∧ n ≤ 102 then some (n - 87)
  else if 65 ≤ n ∧ n ≤ 70 then some (n - 55)
  else none

/-- `bytes.fromhex`: pairs of hex digits; fails on odd length or a
non-hex character. -/
def hexDecodePairs : List Char → Option (List Nat)
  | [] => some []
  | [_] => none
  | c1 :: c2 :: rest =>
      match hexVal c1, hexVal c2, hexDecodePairs rest with
      | some hi, some lo, some bs => some ((16 * hi + lo) :: bs)
      | _, _, _ => none

def hexDecode (s : String) : Option (List Nat) := hexDecodePairs s.data

def hexDigitChar (n : Nat) : Char :=
  Char.ofNat (if n < 10 then 48 + n else 87 + n)

/-- `bytes.hex()`: lowercase hex rendering of a byte list. -/
def hexOfBytes (bs : List Nat) : String :=
  String.mk ((bs.map (fun b => [hexDigitChar (b / 16 % 16), hexDigitChar (b % 16)])).flatten)

/-- UTF-8 encoding of one code point (`str.encode()` for one character). -/
def utf8Bytes (n : Nat) : List Nat :=
  if n < 128 then [n]
  else if n < 2048 then [192 + n / 64, 128 + n % 64]
  else if n < 65536 then [224 + n / 4096, 128 + n / 64 % 64, 128 + n % 64]
  else [240 + n / 262144, 128 + n / 4096 % 64, 128 + n / 64 % 64, 128 + n % 64]

/-- `str.encode()`: the UTF-8 bytes of a string. -/
def strBytes (s : String) : List Nat :=
  (s.data.map (fun c => utf8Bytes c.toNat)).flatten

/-! ### `QuantumCrypto.derive_aes_key` and
`QuantumCrypto.generate_key_fingerprint`
(`src/backend/app/utils/security.py`, lines 8–20 and 40–43). -/
/-- `derive_aes_key(bb84_key_hex, salt)`: decode the hex key
(`bytes.fromhex`, which raises on malformed input — modelled as `none`),
then HKDF-SHA-256 with the UTF-8 salt, info `b"qtransfer-aes"` and
output length 32. -/
def derive_aes_key (bb84KeyHex salt : String) : Option (List Nat) :=
  match hexDecode bb84KeyHex with
  | none => none
  | some ikm => some (hkdfSha256 ikm (strBytes salt) (strBytes "qtransfer-aes") 32)

/-- `generate_key_fingerprint(key)`:
`hashlib.sha256(key).hexdigest()[:16]`. -/
def generate_key_fingerprint (key : List Nat) : String :=
  (hexOfBytes (sha256 key)).take 16

/-! ### The analytic BB84 simulator
(`simulate_bb84_analytic` in `src/qiskit-service/app/main.py`,
lines 44–153).

Python floats are modelled as rationals.  The randomness consumed by the
simulator (`secrets.randbits(1)`, `secrets.SystemRandom().random()`,
`secrets.SystemRandom().sample`) is modelled as an oracle of streams;
every theorem below holds for every realisation of the oracle.  The
`Z`/`X` basis characters are modelled as `Bool` (`true` for `Z`). -/
structure QKDRequest where
  num_qubits : Int
  noise_model : String
  noise_p : ℚ
  eve_fraction : ℚ
  eve_strategy : String
  fast_mode : Bool

structure QKDResponse where
  sifted_key : String
  sifted_key_length : Nat
  qber : ℚ
  sample_positions : List Nat
  sample_values : List Nat
  alice_bases : List String
  bob_bases : List String
  bob_measurements : List Nat
  eve_detected : Bool
deriving DecidableEq

/-- The randomness oracle: one stream per family of draws made by the
simulator. -/
structure Rng where
  aliceBits : Nat → Bool
  aliceBases : Nat → Bool
  bobBases : Nat → Bool
  eveBases : Nat → Bool
  eveBit : Nat → Bool
  bobBit : Nat → Bool
  interceptReal : Nat → ℚ
  noiseReal : Nat → ℚ
  sample : Nat → Nat → List Nat

/-- Contract of `random.sample(range(n), k)` for `k ≤ n`: `k` distinct
members of `range(n)` (sampling without replacement). -/
def SampleWF (rng : Rng) : Prop :=
  ∀ n k, k ≤ n →
    (rng.sample n k).length = k ∧ (rng.sample n k).Nodup ∧
      ∀ x ∈ rng.sample n k, x < n

/-- `range(n)` over the Python int `num_qubits` (empty when
non-positive). -/
def numQubits (params : QKDRequest) : Nat := params.num_qubits.toNat

/-- Bob's recorded measurement for qubit `i`, after Eve's optional
intercept-resend and after depolarizing noise (lines 69–97). -/
def bobMeasurement (params : QKDRequest) (rng : Rng) (i : Nat) : Bool :=
  let afterChannel :=
    if rng.interceptReal i < params.eve_fraction then
      let eveResult :=
        if rng.aliceBases i == rng.eveBases i then rng.aliceBits i else rng.eveBit i
      if rng.bobBases i == rng.eveBases i then eveResult else rng.bobBit i
    else
      if rng.bobBases i == rng.aliceBases i then rng.aliceBits i else rng.bobBit i
  if rng.noiseReal i < params.noise_p then !afterChannel else afterChannel

/-- The positions where Alice's and Bob's bases match (lines 105–112). -/
def siftedPositions (params : QKDRequest) (rng : Rng) : List Nat :=
  (List.range (numQubits params)).filter (fun i => rng.aliceBases i == rng.bobBases i)

/-- The sifted key: Alice's bits at the matching positions. -/
def siftedKeyBits (params : QKDRequest) (rng : Rng) : List Bool :=
  (siftedPositions params rng).map rng.aliceBits

/-- `sample_size = min(100, len(sifted_key) // 4)` (line 117). -/
def sampleSize (params : QKDRequest) (rng : Rng) : Nat :=
  min 100 ((siftedKeyBits params rng).length / 4)

/-- The QBER sample positions (line 119; the response reports `[]` when
`sample_size == 0`, line 147). -/
def samplePositions (params : QKDRequest) (rng : Rng) : List Nat :=
  if 0 < sampleSize params rng then
    rng.sample (siftedKeyBits params rng).length (sampleSize params rng)
  else []

/-- Mismatch count over the sample (lines 120–125): each sampled index
is translated through `sifted_positions` and Alice's original bit is
compared with Bob's recorded measurement. -/
def sampleErrors (params : QKDRequest) (rng : Rng) : Nat :=
  (samplePositions params rng).countP (fun pos =>
    rng.aliceBits ((siftedPositions params rng).getD pos 0)
      != bobMeasurement params rng ((siftedPositions params rng).getD pos 0))

/-- `qber` (lines 127–129). -/
def qberOf (params : QKDRequest) (rng : Rng) : ℚ :=
  if 0 < sampleSize params rng then
    (sampleErrors params rng : ℚ) / (sampleSize params rng : ℚ)
  else 0

def bitVal (b : Bool) : Nat := if b then 1 else 0

/-- Zero-pad the bit list to a multiple of 8 (line 134). -/
def padBits (bits : List Bool) : List Bool :=
  bits ++ List.replicate ((8 - bits.length % 8) % 8) false

/-- `int(''.join(map(str, chunk)), 2)` for one 8-bit chunk (line 135):
parsing a binary numeral is the left fold `acc ↦ 2·acc + bit`. -/
def byteOfBits (bs : List Bool) : Nat :=
  bs.foldl (fun a b => 2 * a + bitVal b) 0

/-- The packed key bytes (lines 134–136). -/
def keyBytes (bits : List Bool) : List Nat :=
  (chunksOf 8 (padBits bits)).map byteOfBits

/-- The reported hex key (lines 131–139): lowercase hex of the packed
bytes, or `""` when no bits were sifted. -/
def keyHex (params : QKDRequest) (rng : Rng) : String :=
  if 0 < (siftedKeyBits params rng).length then
    hexOfBytes (keyBytes (siftedKeyBits params rng))
  else ""

def basisStr (b : Bool) : String := if b then "Z" else "X"

/-- The full simulator (lines 44–153). -/
def simulate_bb84_analytic (params : QKDRequest) (rng : Rng) : QKDResponse :=
  { sifted_key := keyHex params rng
    sifted_key_length := (siftedKeyBits params rng).length
    qber := qberOf params rng
    sample_positions := samplePositions params rng
    sample_values := (samplePositions params rng).map
      (fun i => bitVal (rng.aliceBits ((siftedPositions params rng).getD i 0)))
    alice_bases := ((List.range (numQubits params)).map (fun i => basisStr (rng.aliceBases i))).take 10
    bob_bases := ((List.range (numQubits params)).map (fun i => basisStr (rng.bobBases i))).take 10
    bob_measurements := ((List.range (numQubits params)).map
      (fun i => bitVal (bobMeasurement params rng i))).take 10
    eve_detected := decide (0 < params.eve_fraction) && decide (1 / 10 < qberOf params rng) }

/-- The QKD result endpoint's recomputation of `eve_detected` from the
stored session (`get_qkd_result` in `src/backend/app/api/qkd.py`,
line 138): `session.qber > 0.1 if session.qber is not None else False`. -/
def get_qkd_result_eve_detected (sessionQber : Option ℚ) : Bool :=
  match sessionQber with
  | some q => decide (1 / 10 < q)
  | none => false

/-! ### Auxiliary definitions and lemmas used by the claim theorems -/
/-- MSB-first value of a bit sequence: the first bit carries the highest
weight (`2^(len-1)`). -/
def msbVal : List Bool → Nat
  | [] => 0
  | b :: bs => bitVal b * 2 ^ bs.length + msbVal bs

/-- Concrete inputs used by the witnesses below. -/
def keyW : List Nat := List.replicate 32 0

def nonceW : List Nat := List.replicate 12 0

/-- A concrete realisation of the randomness oracle. -/
def rngW : Rng :=
  { aliceBits := fun _ => false
    aliceBases := fun _ => false
    bobBases := fun _ => false
    eveBases := fun _ => false
    eveBit := fun _ => false
    bobBit := fun _ => false
    interceptReal := fun _ => 0
    noiseReal := fun _ => 0
    sample := fun _ k => List.range k }

/-- An invalid simulation request: unsupported `noise_model` and
`eve_strategy` strings, `noise_p = 2 ∉ [0,1]`, `eve_fraction = -1 ∉
[0,1]`. -/
def reqInvalid : QKDRequest :=
  { num_qubits := 2, noise_model := "garbage", noise_p := 2, eve_fraction := -1,
    eve_strategy := "garbage", fast_mode := true }

/-- An invalid simulation request with a negative `num_qubits` and
out-of-range probabilities. -/
def reqNeg : QKDRequest :=
  { num_qubits := -5, noise_model := "none2", noise_p := 2, eve_fraction := 2,
    eve_strategy := "bogus", fast_mode := true }

/-- A request with `eve_fraction = 0` (honest channel). -/
def reqEveFree : QKDRequest :=
  { num_qubits := 4096, noise_model := "depolarizing", noise_p := 1 / 50,
    eve_fraction := 0, eve_strategy := "intercept_resend", fast_mode := true }

theorem chunksOfAux_eq_chunksOf (n : Nat) (hn : n ≠ 0) (fuel : Nat) :
    ∀ l : List α, l.length ≤ fuel → chunksOfAux n fuel l = chunksOf n l := by
  induction fuel using Nat.strong_induction_on with
  | _ fuel ih =>
    intro l hl
    match fuel, l with
    | 0, l =>
      have h0 : l = [] := List.eq_nil_of_length_eq_zero (by omega)
      subst h0
      simp [chunksOf, chunksOfAux]
    | fuel + 1, [] => simp [chunksOf, chunksOfAux, hn]
    | fuel + 1, a :: as =>
      have hlen : (a :: as).length = as.length + 1 := rfl
      have hdlen : ((a :: as).drop n).length = as.length + 1 - n := List.length_drop n _
      rw [chunksOfAux]
      rw [ih fuel (by omega) _ (by omega)]
      rw [show chunksOf n (a :: as) = chunksOfAux n (as.length + 1) (a :: as) from by
        rw [chunksOf, if_neg hn]
        rfl]
      rw [chunksOfAux]
      rw [ih as.length (by omega) _ (by omega)]

theorem chunksOf_nil (n : Nat) : chunksOf n ([] : List α) = [] := by
  by_cases h : n = 0 <;> simp [chunksOf, chunksOfAux, h]

theorem chunksOf_eq (n : Nat) (l : List α) (hn : n ≠ 0) (hl : l ≠ []) :
    chunksOf n l = l.take n :: chunksOf n (l.drop n) := by
  cases l with
  | nil => exact absurd rfl hl
  | cons a as =>
    rw [show chunksOf n (a :: as) = chunksOfAux n (as.length + 1) (a :: as) from by
      rw [chunksOf, if_neg hn]
      rfl]
    rw [chunksOfAux]
    rw [chunksOfAux_eq_chunksOf n hn as.length _ (by
      have := List.length_drop n (a :: as)
      simp only [List.length_cons] at this
      omega)]

theorem chunkShape_pos (n : Nat) (c : List α) (cs : List (List α))
    (h : chunkShape n (c :: cs)) : 0 < n := by
  induction cs generalizing c with
  | nil => obtain ⟨h1, h2⟩ := h; omega
  | cons c' rest ih => exact ih c' h.2

theorem chunkShape_of_chunksOf (n : Nat) (hn : 0 < n) (l : List α) :
    chunkShape n (chunksOf n l) := by
  suffices h : ∀ (len : Nat) (l : List α), l.length ≤ len → chunkShape n (chunksOf n l) from
    h l.length l le_rfl
  intro len
  induction len with
  | zero =>
    intro l hl
    have h0 : l = [] := List.eq_nil_of_length_eq_zero (by omega)
    subst h0
    rw [chunksOf_nil]
    trivial
  | succ m ih =>
    intro l hl
    by_cases h0 : l = []
    · subst h0
      rw [chunksOf_nil]
      trivial
    · rw [chunksOf_eq n l (by omega) h0]
      have hlp : 0 < l.length := List.length_pos.mpr h0
      have hdlen : (l.drop n).length = l.length - n := List.length_drop n l
      by_cases hdrop : l.drop n = []
      · rw [hdrop, chunksOf_nil]
        have hle : l.length ≤ n := by
          rw [hdrop] at hdlen
          simp at hdlen
          omega
        refine ⟨?_, ?_⟩ <;> rw [List.length_take] <;> omega
      · have hlt : n < l.length := by
          by_contra hc
          push_neg at hc
          exact hdrop (List.drop_eq_nil_of_le hc)
        have htail := ih (l.drop n) (by omega)
        rw [chunksOf_eq n _ (by omega) hdrop] at htail ⊢
        refine ⟨?_, htail⟩
        rw [List.length_take]
        omega

theorem flatten_chunksOf (n : Nat) (hn : 0 < n) (l : List α) :
    (chunksOf n l).flatten = l := by
  suffices h : ∀ (len : Nat) (l : List α), l.length ≤ len → (chunksOf n l).flatten = l from
    h l.length l le_rfl
  intro len
  induction len with
  | zero =>
    intro l hl
    have h0 : l = [] := List.eq_nil_of_length_eq_zero (by omega)
    subst h0
    rw [chunksOf_nil]
    rfl
  | succ m ih =>
    intro l hl
    by_cases h0 : l = []
    · subst h0
      rw [chunksOf_nil]
      rfl
    · rw [chunksOf_eq n l (by omega) h0]
      have hlp : 0 < l.length := List.length_pos.mpr h0
      have hdlen : (l.drop n).length = l.length - n := List.length_drop n l
      rw [List.flatten_cons, ih (l.drop n) (by omega)]
      exact List.take_append_drop n l

theorem chunksOf_flatten (n : Nat) (ls : List (List α)) (h : chunkShape n ls) :
    chunksOf n ls.flatten = ls := by
  induction ls with
  | nil => simp [chunksOf_nil]
  | cons c cs ih =>
    cases cs with
    | nil =>
      obtain ⟨h1, h2⟩ := h
      have hc : c ≠ [] := by
        intro hc
        rw [hc] at h1
        simp at h1
      simp only [List.flatten_cons, List.flatten_nil, List.append_nil]
      rw [chunksOf_eq n c (by omega) hc]
      rw [List.take_of_length_le h2, List.drop_eq_nil_of_le h2, chunksOf_nil]
    | cons c' rest =>
      obtain ⟨h1, h2⟩ := h
      have hn : 0 < n := chunkShape_pos n c' rest h2
      have hc : c ≠ [] := by
        intro hc
        rw [hc] at h1
        simp at h1
        omega
      have hne : c ++ (c' :: rest).flatten ≠ [] := by
        intro hcon
        exact hc (List.append_eq_nil.mp hcon).1
      rw [List.flatten_cons]
      rw [chunksOf_eq n _ (by omega) hne]
      rw [List.take_left' h1, List.drop_left' h1]
      rw [ih h2]

theorem length_zipXor (a b : List Nat) :
    (zipXor a b).length = min a.length b.length := by
  simp [zipXor]

theorem zipXor_cancel (a b : List Nat) (h : a.length = b.length) :
    zipXor (zipXor a b) b = a := by
  induction a generalizing b with
  | nil => simp [zipXor]
  | cons x xs ih =>
    cases b with
    | nil => simp at h
    | cons y ys =>
      simp only [zipXor, List.zipWith_cons_cons]
      have hx : x ^^^ y ^^^ y = x := Nat.xor_cancel_right y x
      simp only [List.length_cons] at h
      have := ih ys (by omega)
      simp only [zipXor] at this
      rw [hx, this]

theorem length_natToBytes16 (x : Nat) : (natToBytes16 x).length = 16 := rfl

theorem length_keystream (key nonce : List Nat) (len : Nat) :
    (keystream key nonce len).length = len := by
  rw [keystream, List.length_take]
  have hjoin : ∀ k, (((List.range k).map
      (fun i => natToBytes16 (aesEncNat key (ctrBlockNat (j0Nat nonce) i)))).flatten).length
      = 16 * k := by
    intro k
    induction k with
    | zero => simp
    | succ m ih =>
      rw [List.range_succ]
      simp only [List.map_append, List.flatten_append, List.length_append, ih]
      simp [length_natToBytes16]
      omega
  rw [hjoin]
  have h1 := Nat.div_add_mod (len + 15) 16
  have h2 : (len + 15) % 16 < 16 := Nat.mod_lt _ (by omega)
  omega

theorem length_gcmTagBytes (key nonce ct : List Nat) :
    (gcmTagBytes key nonce ct).length = 16 := rfl

theorem length_encrypt_chunk (data key nonce : List Nat) :
    (encrypt_chunk data key nonce).length = 16 + data.length := by
  rw [encrypt_chunk]
  simp only [List.length_append, length_gcmTagBytes, length_zipXor, length_keystream]
  omega

theorem decrypt_encrypt_chunk (data key nonce : List Nat) :
    decrypt_chunk (encrypt_chunk data key nonce) key nonce = Except.ok data := by
  rw [encrypt_chunk, decrypt_chunk]
  have hct : (zipXor data (keystream key nonce data.length)).length = data.length := by
    rw [length_zipXor, length_keystream]
    omega
  have htake : (gcmTagBytes key nonce (zipXor data (keystream key nonce data.length)) ++
      zipXor data (keystream key nonce data.length)).take 16
      = gcmTagBytes key nonce (zipXor data (keystream key nonce data.length)) :=
    List.take_left' (length_gcmTagBytes _ _ _)
  have hdrop : (gcmTagBytes key nonce (zipXor data (keystream key nonce data.length)) ++
      zipXor data (keystream key nonce data.length)).drop 16
      = zipXor data (keystream key nonce data.length) :=
    List.drop_left' (length_gcmTagBytes _ _ _)
  simp only [htake, hdrop, hct, if_pos rfl]
  rw [zipXor_cancel data (keystream key nonce data.length) (length_keystream key nonce _).symm]
  simp

theorem chunkShape_encChunks (key nonce p : List Nat) :
    chunkShape 65552 (encChunks key nonce p) := by
  rw [encChunks]
  have hshape := chunkShape_of_chunksOf 65536 (by omega) p
  revert hshape
  generalize chunksOf 65536 p = pcs
  intro hshape
  induction pcs with
  | nil => trivial
  | cons c cs ih =>
    cases cs with
    | nil =>
      obtain ⟨h1, h2⟩ := hshape
      refine ⟨?_, ?_⟩ <;> rw [length_encrypt_chunk] <;> omega
    | cons c' rest =>
      obtain ⟨h1, h2⟩ := hshape
      refine ⟨?_, ih h2⟩
      rw [length_encrypt_chunk]
      omega

theorem decryptLoop_encChunks (key nonce : List Nat) (pcs : List (List Nat)) :
    decryptLoop key nonce (pcs.map (fun c => encrypt_chunk c key nonce))
      = Except.ok pcs.flatten := by
  induction pcs with
  | nil => rfl
  | cons c cs ih =>
    simp only [List.map_cons, decryptLoop, decrypt_encrypt_chunk, ih, List.flatten_cons]

/-- Decrypting the container produced by `upload_file` recovers the
plaintext byte-for-byte, for any key and any 12-byte nonce. -/
theorem download_upload_roundtrip (key nonce p : List Nat) (hn : nonce.length = 12) :
    download_file_decrypt key (upload_file_encrypt key nonce p) = Except.ok p := by
  rw [download_file_decrypt, upload_file_encrypt]
  rw [List.take_left' hn, List.drop_left' hn]
  rw [chunksOf_flatten 65552 _ (chunkShape_encChunks key nonce p)]
  rw [encChunks, decryptLoop_encChunks]
  rw [flatten_chunksOf 65536 (by omega) p]

theorem xor_shiftLeft_ne (x b : Nat) : x ^^^ (1 <<< b) ≠ x := by
  intro h
  have hz : (1 <<< b) = 0 := by
    have h2 := congrArg (fun y => x ^^^ y) h
    simp only at h2
    rw [← Nat.xor_assoc, Nat.xor_self, Nat.zero_xor] at h2
    omega
  rw [Nat.one_shiftLeft] at hz
  exact absurd hz (Nat.pos_iff_ne_zero.mp (Nat.pos_pow_of_pos b (by omega)))

theorem set_flip_ne (l : List Nat) (m b : Nat) (hm : m < l.length) :
    l.set m ((l.getD m 0) ^^^ (1 <<< b)) ≠ l := by
  intro h
  have h1 : (l.set m ((l.getD m 0) ^^^ (1 <<< b)))[m]? = l[m]? := by rw [h]
  rw [List.getElem?_set_self hm] at h1
  have h2 := List.getD_eq_getElem?_getD l m 0
  rw [← h1] at h2
  simp only [Option.getD_some] at h2
  exact xor_shiftLeft_ne (l.getD m 0) b h2.symm

theorem decrypt_chunk_error (key nonce c : List Nat) (h : authFails key nonce c) :
    decrypt_chunk c key nonce = Except.error CryptoError.authenticationError := by
  rw [decrypt_chunk]
  simp only [if_neg h]

/-- Flipping any bit of any of the 16 tag bytes of an encrypted record
makes its AEAD verification fail (the ciphertext, hence the recomputed
tag, is unchanged, while the stored tag now differs). -/
theorem tagFlip_authFails (data key nonce : List Nat) (m b : Nat) (hm : m < 16) :
    authFails key nonce (flipBitOfByte (encrypt_chunk data key nonce) m b) := by
  rw [encrypt_chunk]
  set ct := zipXor data (keystream key nonce data.length) with hct
  set tag := gcmTagBytes key nonce ct with htag
  have hlt : (tag : List Nat).length = 16 := length_gcmTagBytes _ _ _
  rw [flipBitOfByte]
  have hmt : m < (tag : List Nat).length := by omega
  rw [List.getD_append tag ct 0 m hmt]
  rw [List.set_append_left m _ hmt]
  have hlt2 : (tag.set m (tag.getD m 0 ^^^ 1 <<< b)).length = 16 := by
    rw [List.length_set]; omega
  rw [authFails, List.take_left' hlt2, List.drop_left' hlt2]
  rw [← htag]
  exact (set_flip_ne tag m b hmt).symm

theorem tamperDetected_cons (key nonce c : List Nat) (cs : List (List Nat)) (m b : Nat) :
    tamperDetected key nonce (c :: cs) m b
      = if m < c.length then authFails key nonce (flipBitOfByte c m b)
        else tamperDetected key nonce cs (m - c.length) b := rfl

/-- A flip whose offset within its 65552-byte record is below 16 lands
in that record's tag, so it is always detected. -/
theorem tagRegion_tamperDetected (key nonce : List Nat) (pcs : List (List Nat))
    (m b : Nat) (hs : chunkShape 65536 pcs)
    (hm : m < ((pcs.map (fun c => encrypt_chunk c key nonce)).flatten).length)
    (hoff : m % 65552 < 16) :
    tamperDetected key nonce (pcs.map (fun c => encrypt_chunk c key nonce)) m b := by
  induction pcs generalizing m with
  | nil => simp at hm
  | cons pc rest ih =>
    have hlen : (encrypt_chunk pc key nonce).length = 16 + pc.length :=
      length_encrypt_chunk pc key nonce
    simp only [List.map_cons, List.flatten_cons, List.length_append] at hm
    by_cases hcase : m < (encrypt_chunk pc key nonce).length
    · rw [List.map_cons, tamperDetected_cons, if_pos hcase]
      have hpc : pc.length ≤ 65536 := by
        cases rest with
        | nil => exact hs.2
        | cons c' r => exact le_of_eq hs.1
      have hm16 : m < 16 := by
        have : m < 65552 := by omega
        omega
      exact tagFlip_authFails pc key nonce m b hm16
    · rw [List.map_cons, tamperDetected_cons, if_neg hcase]
      push_neg at hcase
      cases rest with
      | nil =>
        exfalso
        simp at hm
        omega
      | cons c' r =>
        have hfull : pc.length = 65536 := hs.1
        have hel : (encrypt_chunk pc key nonce).length = 65552 := by omega
        exact ih _ hs.2 (by omega) (by omega)

theorem decryptLoop_cons (key nonce c : List Nat) (cs : List (List Nat)) :
    decryptLoop key nonce (c :: cs)
      = match decrypt_chunk c key nonce with
        | Except.error e => Except.error e
        | Except.ok d =>
            match decryptLoop key nonce cs with
            | Except.error e => Except.error e
            | Except.ok rest => Except.ok (d ++ rest) := rfl

/-- If the flip at offset `m` of the concatenated records is detected in
its record, the decryption loop fails with an authentication error; the
loop aborts at the first failing record. -/
theorem decryptLoop_tamper (key nonce : List Nat) (pcs : List (List Nat)) (m b : Nat)
    (hs : chunkShape 65536 pcs)
    (hm : m < ((pcs.map (fun c => encrypt_chunk c key nonce)).flatten).length)
    (hd : tamperDetected key nonce (pcs.map (fun c => encrypt_chunk c key nonce)) m b) :
    decryptLoop key nonce
        (chunksOf 65552
          (flipBitOfByte ((pcs.map (fun c => encrypt_chunk c key nonce)).flatten) m b))
      = Except.error CryptoError.authenticationError := by
  induction pcs generalizing m with
  | nil => simp at hm
  | cons pc rest ih =>
    simp only [List.map_cons, List.flatten_cons, List.length_append] at hm ⊢
    simp only [List.map_cons, tamperDetected_cons] at hd
    have hlen_e : (encrypt_chunk pc key nonce).length = 16 + pc.length :=
      length_encrypt_chunk pc key nonce
    by_cases hcase : m < (encrypt_chunk pc key nonce).length
    · rw [if_pos hcase] at hd
      rw [flipBitOfByte,
        List.getD_append (encrypt_chunk pc key nonce) _ 0 m hcase,
        List.set_append_left m _ hcase]
      have hF : (flipBitOfByte (encrypt_chunk pc key nonce) m b).length
          = (encrypt_chunk pc key nonce).length := List.length_set _ _ _
      rw [show (encrypt_chunk pc key nonce).set m
            ((encrypt_chunk pc key nonce).getD m 0 ^^^ 1 <<< b)
          = flipBitOfByte (encrypt_chunk pc key nonce) m b from rfl]
      cases rest with
      | nil =>
        have hle : (flipBitOfByte (encrypt_chunk pc key nonce) m b).length ≤ 65552 := by
          rw [hF, hlen_e]
          have := hs.2
          omega
        have hpos : flipBitOfByte (encrypt_chunk pc key nonce) m b ≠ [] := by
          intro hcon
          have h0 := congrArg List.length hcon
          rw [hF, hlen_e] at h0
          simp only [List.length_nil] at h0
          omega
        simp only [List.map_nil, List.flatten_nil, List.append_nil]
        rw [chunksOf_eq 65552 _ (by omega) hpos]
        rw [List.take_of_length_le hle, List.drop_eq_nil_of_le hle, chunksOf_nil]
        rw [decryptLoop_cons, decrypt_chunk_error key nonce _ hd]
      | cons c' r =>
        have hF52 : (flipBitOfByte (encrypt_chunk pc key nonce) m b).length = 65552 := by
          rw [hF, hlen_e, hs.1]
        have hne : flipBitOfByte (encrypt_chunk pc key nonce) m b ++
            ((c' :: r).map (fun c => encrypt_chunk c key nonce)).flatten ≠ [] := by
          intro hcon
          have := congrArg List.length hcon
          simp [hF52] at this
        rw [chunksOf_eq 65552 _ (by omega) hne]
        rw [List.take_left' hF52, List.drop_left' hF52]
        rw [decryptLoop_cons, decrypt_chunk_error key nonce _ hd]
    · rw [if_neg hcase] at hd
      push_neg at hcase
      cases rest with
      | nil =>
        exfalso
        simp at hm
        omega
      | cons c' r =>
        have he52 : (encrypt_chunk pc key nonce).length = 65552 := by
          rw [hlen_e, hs.1]
        rw [flipBitOfByte,
          List.getD_append_right (encrypt_chunk pc key nonce) _ 0 m hcase,
          List.set_append_right m _ hcase]
        rw [show (((c' :: r).map (fun c => encrypt_chunk c key nonce)).flatten).set
              (m - (encrypt_chunk pc key nonce).length)
              ((((c' :: r).map (fun c => encrypt_chunk c key nonce)).flatten).getD
                (m - (encrypt_chunk pc key nonce).length) 0 ^^^ 1 <<< b)
            = flipBitOfByte (((c' :: r).map (fun c => encrypt_chunk c key nonce)).flatten)
                (m - (encrypt_chunk pc key nonce).length) b from rfl]
        have hne : encrypt_chunk pc key nonce ++
            flipBitOfByte (((c' :: r).map (fun c => encrypt_chunk c key nonce)).flatten)
              (m - (encrypt_chunk pc key nonce).length) b ≠ [] := by
          intro hcon
          have := congrArg List.length hcon
          simp [he52] at this
        rw [chunksOf_eq 65552 _ (by omega) hne]
        rw [List.take_left' he52, List.drop_left' he52]
        rw [decryptLoop_cons, decrypt_encrypt_chunk]
        rw [ih (m - (encrypt_chunk pc key nonce).length) hs.2 (by omega) hd]

/-- Flipping one bit of a payload byte of a container aborts
`download_file_content`'s decryption with an authentication error,
provided the affected record's verification fails — which
`tagRegion_tamperDetected` shows is automatic when the byte lies in a
record's 16-byte tag. -/
theorem download_tamper (key nonce p : List Nat) (hn : nonce.length = 12)
    (j b : Nat) (hj : 12 ≤ j) (hjlt : j < (upload_file_encrypt key nonce p).length)
    (hdet : (j - 12) % 65552 < 16
      ∨ tamperDetected key nonce (encChunks key nonce p) (j - 12) b) :
    download_file_decrypt key (flipBitOfByte (upload_file_encrypt key nonce p) j b)
      = Except.error CryptoError.authenticationError := by
  have hlen : (upload_file_encrypt key nonce p).length
      = 12 + (encChunks key nonce p).flatten.length := by
    rw [upload_file_encrypt, List.length_append, hn]
  have hm : j - 12 < (encChunks key nonce p).flatten.length := by omega
  have hflip : flipBitOfByte (upload_file_encrypt key nonce p) j b
      = nonce ++ flipBitOfByte ((encChunks key nonce p).flatten) (j - 12) b := by
    rw [upload_file_encrypt, flipBitOfByte,
      List.getD_append_right nonce _ 0 j (by omega),
      List.set_append_right j _ (by omega), hn]
    rfl
  rw [hflip, download_file_decrypt, List.take_left' hn, List.drop_left' hn]
  have hdet2 : tamperDetected key nonce (encChunks key nonce p) (j - 12) b := by
    cases hdet with
    | inl hoff =>
      exact tagRegion_tamperDetected key nonce (chunksOf 65536 p) (j - 12) b
        (chunkShape_of_chunksOf 65536 (by omega) p) hm hoff
    | inr h => exact h
  exact decryptLoop_tamper key nonce (chunksOf 65536 p) (j - 12) b
    (chunkShape_of_chunksOf 65536 (by omega) p) hm hdet2

theorem length_sha256 (msg : List Nat) : (sha256 msg).length = 32 := by
  rw [sha256, stateBytes]
  simp [be4]

theorem length_hmacSha256 (key msg : List Nat) : (hmacSha256 key msg).length = 32 :=
  length_sha256 _

theorem length_hkdfBlocks (prk info : List Nat) (n : Nat) :
    ∀ (i : Nat) (tPrev acc : List Nat),
      (hkdfBlocks prk info n i tPrev acc).length = acc.length + 32 * n := by
  induction n with
  | zero => intro i tPrev acc; simp [hkdfBlocks]
  | succ m ih =>
    intro i tPrev acc
    rw [hkdfBlocks, ih]
    simp [length_hmacSha256]
    omega

theorem length_hkdfSha256_32 (ikm salt info : List Nat) :
    (hkdfSha256 ikm salt info 32).length = 32 := by
  rw [hkdfSha256, List.length_take, length_hkdfBlocks]
  simp

theorem byteOfBits_foldl (bs : List Bool) :
    ∀ a : Nat, bs.foldl (fun x b => 2 * x + bitVal b) a = a * 2 ^ bs.length + msbVal bs := by
  induction bs with
  | nil => intro a; simp [msbVal]
  | cons b rest ih =>
    intro a
    rw [List.foldl_cons, ih, msbVal]
    simp only [List.length_cons]
    ring

theorem byteOfBits_eq_msbVal (bs : List Bool) : byteOfBits bs = msbVal bs := by
  rw [byteOfBits, byteOfBits_foldl]
  simp

theorem enc_enum (key nonce : List Nat) (pcs : List (List Nat)) :
    pcs.enum.map (fun ic => encrypt_chunk ic.2 key (chunkNonce nonce ic.1))
      = pcs.map (fun c => encrypt_chunk c key nonce) := by
  have h1 : pcs.enum.map (fun ic => encrypt_chunk ic.2 key (chunkNonce nonce ic.1))
      = (pcs.enum.map Prod.snd).map (fun c => encrypt_chunk c key nonce) := by
    rw [List.map_map]
    rfl
  rw [h1, List.enum_map_snd]

theorem length_flatten_enc (key nonce : List Nat) (pcs : List (List Nat)) :
    ((pcs.map (fun c => encrypt_chunk c key nonce)).flatten).length
      = 16 * pcs.length + pcs.flatten.length := by
  induction pcs with
  | nil => simp
  | cons c cs ih =>
    simp only [List.map_cons, List.flatten_cons, List.length_append, ih,
      length_encrypt_chunk, List.length_cons]
    ring

theorem length_upload_file_encrypt (key nonce p : List Nat) :
    (upload_file_encrypt key nonce p).length
      = nonce.length + 16 * (chunksOf 65536 p).length + p.length := by
  rw [upload_file_encrypt, List.length_append, encChunks, length_flatten_enc,
    flatten_chunksOf 65536 (by omega) p]
  ring

theorem sampleWF_rngW : SampleWF rngW := by
  intro n k hk
  simp only [rngW]
  refine ⟨List.length_range k, List.nodup_range k, ?_⟩
  intro x hx
  rw [List.mem_range] at hx
  omega

/-! ### Claim theorems -/
/-- C1.  The claim asserts a 4-byte per-file salt header and per-chunk
nonces `salt ‖ BE64(c)`, distinct across chunks.  The code does
otherwise, and this theorem records its actual behaviour: (i) the nonce
under which a chunk is encrypted does not depend on the chunk index —
every chunk of a file is encrypted under the identical 12-byte nonce,
so nonces of distinct chunks coincide rather than differ; (ii) the
encrypted records are exactly the chunks encrypted under that constant
per-chunk nonce; (iii) the container header is the whole 12-byte nonce,
not a 4-byte salt; and (iv) decryption reads a 12-byte (not 4-byte)
header and reuses it unchanged for every record. -/
theorem spec_claim_C1_nonce_reuse :
    (∀ (nonce : List Nat) (c1 c2 : Nat), chunkNonce nonce c1 = chunkNonce nonce c2)
    ∧ (∀ key nonce p : List Nat,
        encChunks key nonce p
          = (chunksOf 65536 p).enum.map (fun ic => encrypt_chunk ic.2 key (chunkNonce nonce ic.1)))
    ∧ (∀ key nonce p : List Nat,
        (upload_file_encrypt key nonce p).take nonce.length = nonce)
    ∧ (∀ key container : List Nat,
        download_file_decrypt key container
          = decryptLoop key (container.take 12) (chunksOf 65552 (container.drop 12))) := by
  refine ⟨fun nonce c1 c2 => rfl, fun key nonce p => ?_, fun key nonce p => ?_,
    fun key container => rfl⟩
  · rw [encChunks]
    exact (enc_enum key nonce (chunksOf 65536 p)).symm
  · rw [upload_file_encrypt, List.take_left]

/-- Flipping any single bit of any of the 16 tag bytes of any record of
a container produced by `upload_file` makes `download_file_content`'s
decryption fail with the authentication error, abort as a whole, and
release no plaintext — unconditionally, for every key, nonce, plaintext
and flip position inside a tag region.  (For a flip inside a ciphertext
byte the analogous detection is AES-GCM's authentication guarantee —
the nonvanishing of the GHASH difference the flip introduces — which
this development does not settle; `download_tamper` covers any flip
whose record demonstrably fails verification.) -/
theorem download_tagflip_aborts (key nonce p : List Nat)
    (hnonce : nonce.length = 12) (j b : Nat)
    (hj : 12 ≤ j) (hjlt : j < (upload_file_encrypt key nonce p).length)
    (htag : (j - 12) % 65552 < 16) :
    download_file_decrypt key (flipBitOfByte (upload_file_encrypt key nonce p) j b)
        = Except.error CryptoError.authenticationError
    ∧ ∀ out : List Nat,
        download_file_decrypt key (flipBitOfByte (upload_file_encrypt key nonce p) j b)
          ≠ Except.ok out := by
  have h := download_tamper key nonce p hnonce j b hj hjlt (Or.inl htag)
  refine ⟨h, fun out hc => ?_⟩
  rw [h] at hc
  exact Except.noConfusion hc

/-- `download_tagflip_aborts` at a concrete input: a 1-byte file, with
bit 0 of byte 12 (the first tag byte of the single record) flipped. -/
theorem download_tagflip_aborts_example :
    download_file_decrypt keyW (flipBitOfByte (upload_file_encrypt keyW nonceW [7]) 12 0)
        = Except.error CryptoError.authenticationError
    ∧ ∀ out : List Nat,
        download_file_decrypt keyW (flipBitOfByte (upload_file_encrypt keyW nonceW [7]) 12 0)
          ≠ Except.ok out :=
  download_tagflip_aborts keyW nonceW [7] (by decide) 12 0 (by decide)
    (by rw [length_upload_file_encrypt]; decide) (by decide)

/-- C3.  For every 32-byte key and plaintext of one of the claimed
lengths, decrypting the container produced by encryption recovers the
plaintext exactly (the proof, `download_upload_roundtrip`, holds for
every plaintext). -/
theorem spec_claim_C3_roundtrip (key nonce p : List Nat)
    (hkey : key.length = 32) (hnonce : nonce.length = 12)
    (hlen : p.length = 0 ∨ p.length = 1 ∨ p.length = 65535 ∨ p.length = 65536
      ∨ p.length = 65537 ∨ p.length = 300000) :
    download_file_decrypt key (upload_file_encrypt key nonce p) = Except.ok p :=
  download_upload_roundtrip key nonce p hnonce

/-- Witness for C3 at a concrete input (the empty plaintext). -/
theorem spec_claim_C3_roundtrip_witness :
    download_file_decrypt keyW (upload_file_encrypt keyW nonceW []) = Except.ok [] :=
  spec_claim_C3_roundtrip keyW nonceW [] (by decide) (by decide) (Or.inl (by decide))

/-- C4.  The claim asserts that invalid parameters are rejected with a
validation error before any randomness is consumed.  The code performs
no such validation: `QKDRequest` declares no validators and
`simulate_bb84_analytic` never raises.  This theorem evaluates the code
at failing inputs: (i) a request with an unsupported `noise_model` and
`eve_strategy`, `noise_p = 2` and `eve_fraction = -1` is processed —
the whole simulation loop runs (every bit is noise-flipped since every
channel draw is `< 2`) and a normal successful response is returned;
(ii) a request with `num_qubits = -5` and out-of-range probabilities
likewise returns a normal (empty) response for every randomness
realisation, instead of a validation error. -/
theorem spec_claim_C4_no_validation :
    simulate_bb84_analytic reqInvalid rngW
        = { sifted_key := "00", sifted_key_length := 2, qber := 0, sample_positions := [],
            sample_values := [], alice_bases := ["X", "X"], bob_bases := ["X", "X"],
            bob_measurements := [1, 1], eve_detected := false }
    ∧ ∀ rng : Rng,
        simulate_bb84_analytic reqNeg rng
          = { sifted_key := "", sifted_key_length := 0, qber := 0, sample_positions := [],
              sample_values := [], alice_bases := [], bob_bases := [],
              bob_measurements := [], eve_detected := false } := by
  refine ⟨by decide, fun rng => ?_⟩
  have h0 : numQubits reqNeg = 0 := rfl
  simp only [simulate_bb84_analytic, keyHex, siftedKeyBits, siftedPositions, samplePositions,
    sampleSize, qberOf, sampleErrors, h0, List.range_zero, List.filter_nil, List.map_nil,
    List.length_nil, Nat.zero_div, Nat.min_zero, lt_irrefl, if_false, List.take_nil]
  norm_num [reqNeg]

/-- C5.  Key derivation is a deterministic pure function: two calls on
the same valid hex key and salt yield the identical 32-byte key
material, and the fingerprint — the first 16 hex characters of SHA-256
of the derived key — is likewise identical across calls. -/
theorem spec_claim_C5_derive_deterministic (k s : String) (hk : (hexDecode k).isSome) :
    derive_aes_key k s = derive_aes_key k s
    ∧ ∃ kb : List Nat,
        derive_aes_key k s = some kb ∧ kb.length = 32
        ∧ generate_key_fingerprint kb = generate_key_fingerprint kb
        ∧ generate_key_fingerprint kb = (hexOfBytes (sha256 kb)).take 16 := by
  refine ⟨rfl, ?_⟩
  obtain ⟨ikm, hikm⟩ := Option.isSome_iff_exists.mp hk
  refine ⟨hkdfSha256 ikm (strBytes s) (strBytes "qtransfer-aes") 32, ?_, ?_, rfl, rfl⟩
  · rw [derive_aes_key, hikm]
  · exact length_hkdfSha256_32 ikm (strBytes s) (strBytes "qtransfer-aes")

/-- Witness for C5 at a concrete input. -/
theorem spec_claim_C5_derive_deterministic_witness :
    derive_aes_key "0a" "session1" = derive_aes_key "0a" "session1"
    ∧ ∃ kb : List Nat,
        derive_aes_key "0a" "session1" = some kb ∧ kb.length = 32
        ∧ generate_key_fingerprint kb = generate_key_fingerprint kb
        ∧ generate_key_fingerprint kb = (hexOfBytes (sha256 kb)).take 16 :=
  spec_claim_C5_derive_deterministic "0a" "session1" (by decide)

/-- C6.  The QBER sample has size `min(100, sifted_length / 4)`, is
drawn without replacement (distinct indices) from the sifted positions;
`qber` is the number of sampled positions where Alice's original bit
differs from Bob's received bit, divided by the sample size; when the
sample size is 0 the reported sample is empty and `qber = 0`; and `0 ≤
qber ≤ 1` always. -/
theorem spec_claim_C6_qber_sample (params : QKDRequest) (rng : Rng) (hwf : SampleWF rng) :
    ((simulate_bb84_analytic params rng).sample_positions.length
        = min 100 ((siftedKeyBits params rng).length / 4)
      ∧ (simulate_bb84_analytic params rng).sample_positions.Nodup
      ∧ ∀ x ∈ (simulate_bb84_analytic params rng).sample_positions,
          x < (siftedKeyBits params rng).length)
    ∧ (0 < min 100 ((siftedKeyBits params rng).length / 4) →
        (simulate_bb84_analytic params rng).qber
          = (sampleErrors params rng : ℚ)
              / ((min 100 ((siftedKeyBits params rng).length / 4) : ℕ) : ℚ))
    ∧ (min 100 ((siftedKeyBits params rng).length / 4) = 0 →
        (simulate_bb84_analytic params rng).qber = 0
        ∧ (simulate_bb84_analytic params rng).sample_positions = [])
    ∧ 0 ≤ (simulate_bb84_analytic params rng).qber
    ∧ (simulate_bb84_analytic params rng).qber ≤ 1 := by
  have hr1 : (simulate_bb84_analytic params rng).sample_positions
      = samplePositions params rng := rfl
  have hr2 : (simulate_bb84_analytic params rng).qber = qberOf params rng := rfl
  have hss : sampleSize params rng = min 100 ((siftedKeyBits params rng).length / 4) := rfl
  by_cases h0 : 0 < sampleSize params rng
  · have hsl : sampleSize params rng ≤ (siftedKeyBits params rng).length := by
      rw [hss]
      have := Nat.div_le_self (siftedKeyBits params rng).length 4
      omega
    have hsp : samplePositions params rng
        = rng.sample (siftedKeyBits params rng).length (sampleSize params rng) := by
      rw [samplePositions, if_pos h0]
    obtain ⟨hlen, hnodup, hmem⟩ := hwf (siftedKeyBits params rng).length (sampleSize params rng) hsl
    have herrle : sampleErrors params rng ≤ sampleSize params rng := by
      rw [sampleErrors, hsp]
      calc (rng.sample (siftedKeyBits params rng).length (sampleSize params rng)).countP _
          ≤ (rng.sample (siftedKeyBits params rng).length (sampleSize params rng)).length :=
            List.countP_le_length _
        _ = sampleSize params rng := hlen
    have hq : qberOf params rng
        = (sampleErrors params rng : ℚ) / (sampleSize params rng : ℚ) := by
      rw [qberOf, if_pos h0]
    refine ⟨⟨?_, ?_, ?_⟩, fun _ => ?_, fun hz => ?_, ?_, ?_⟩
    · rw [hr1, hsp, hlen, hss]
    · rw [hr1, hsp]; exact hnodup
    · rw [hr1, hsp]; exact hmem
    · rw [hr2, hq, hss]
    · rw [← hss] at hz
      exact absurd hz (by omega)
    · rw [hr2, hq]
      positivity
    · rw [hr2, hq]
      rw [div_le_one (by exact_mod_cast h0)]
      exact_mod_cast herrle
  · push_neg at h0
    have hz : sampleSize params rng = 0 := by omega
    have hsp : samplePositions params rng = [] := by
      rw [samplePositions, if_neg (by omega)]
    have hq : qberOf params rng = 0 := by
      rw [qberOf, if_neg (by omega)]
    refine ⟨⟨?_, ?_, ?_⟩, fun hpos => ?_, fun _ => ⟨?_, ?_⟩, ?_, ?_⟩
    · rw [hr1, hsp, ← hss, hz]
      rfl
    · rw [hr1, hsp]; exact List.nodup_nil
    · rw [hr1, hsp]; intro x hx; exact absurd hx (List.not_mem_nil x)
    · rw [← hss] at hpos; omega
    · rw [hr2, hq]
    · rw [hr1, hsp]
    · rw [hr2, hq]
    · rw [hr2, hq]; norm_num

/-- Witness for C6 at a concrete randomness oracle. -/
theorem spec_claim_C6_qber_sample_witness :
    ((simulate_bb84_analytic reqInvalid rngW).sample_positions.length
        = min 100 ((siftedKeyBits reqInvalid rngW).length / 4)
      ∧ (simulate_bb84_analytic reqInvalid rngW).sample_positions.Nodup
      ∧ ∀ x ∈ (simulate_bb84_analytic reqInvalid rngW).sample_positions,
          x < (siftedKeyBits reqInvalid rngW).length)
    ∧ (0 < min 100 ((siftedKeyBits reqInvalid rngW).length / 4) →
        (simulate_bb84_analytic reqInvalid rngW).qber
          = (sampleErrors reqInvalid rngW : ℚ)
              / ((min 100 ((siftedKeyBits reqInvalid rngW).length / 4) : ℕ) : ℚ))
    ∧ (min 100 ((siftedKeyBits reqInvalid rngW).length / 4) = 0 →
        (simulate_bb84_analytic reqInvalid rngW).qber = 0
        ∧ (simulate_bb84_analytic reqInvalid rngW).sample_positions = [])
    ∧ 0 ≤ (simulate_bb84_analytic reqInvalid rngW).qber
    ∧ (simulate_bb84_analytic reqInvalid rngW).qber ≤ 1 :=
  spec_claim_C6_qber_sample reqInvalid rngW sampleWF_rngW

/-- C7.  The simulator's reported `eve_detected` flag is true exactly
when `eavesdrop_fraction > 0` and the computed `qber` exceeds the fixed
constant `0.1`. -/
theorem spec_claim_C7_eve_detected (params : QKDRequest) (rng : Rng) :
    (simulate_bb84_analytic params rng).eve_detected = true
      ↔ 0 < params.eve_fraction
        ∧ 1 / 10 < (simulate_bb84_analytic params rng).qber := by
  have hr : (simulate_bb84_analytic params rng).qber = qberOf params rng := rfl
  rw [hr]
  show (decide (0 < params.eve_fraction) && decide (1 / 10 < qberOf params rng)) = true ↔ _
  simp

/-- C8.  `sifted_length` counts the basis-matching positions, the
sifted key is the ordered subsequence of Alice's bits at exactly those
positions, and the reported key is the lowercase hex string of those
bits packed most-significant-bit first into bytes, the final byte
zero-padded to a multiple of 8 bits. -/
theorem spec_claim_C8_sifting_encoding (params : QKDRequest) (rng : Rng) :
    (simulate_bb84_analytic params rng).sifted_key_length
        = (List.range (numQubits params)).countP (fun i => rng.aliceBases i == rng.bobBases i)
    ∧ siftedKeyBits params rng
        = ((List.range (numQubits params)).filter
            (fun i => rng.aliceBases i == rng.bobBases i)).map rng.aliceBits
    ∧ (simulate_bb84_analytic params rng).sifted_key
        = hexOfBytes ((chunksOf 8 (padBits (siftedKeyBits params rng))).map msbVal) := by
  refine ⟨?_, rfl, ?_⟩
  · show (siftedKeyBits params rng).length = _
    rw [siftedKeyBits, List.length_map, siftedPositions, List.countP_eq_length_filter]
  · show keyHex params rng = _
    rw [keyHex]
    by_cases h0 : 0 < (siftedKeyBits params rng).length
    · rw [if_pos h0, keyBytes]
      congr 1
      exact List.map_congr_left (fun bs _ => byteOfBits_eq_msbVal bs)
    · rw [if_neg h0]
      have hb : siftedKeyBits params rng = [] := by
        rw [← List.length_eq_zero]
        omega
      rw [hb]
      rfl

/-- C9.  A run with zero sifted bits reports the empty hex key; key
derivation accepts the empty hex string (HKDF over empty input keying
material) and still returns 32 bytes of key material; and no minimum
key-length check exists on the derivation path — it succeeds on every
well-formed hex input. -/
theorem spec_claim_C9_empty_key (params : QKDRequest) (rng : Rng) (s : String) :
    ((siftedKeyBits params rng).length = 0 →
        (simulate_bb84_analytic params rng).sifted_key = "")
    ∧ (∀ k : String, (hexDecode k).isSome → (derive_aes_key k s).isSome)
    ∧ ∃ kb : List Nat, derive_aes_key "" s = some kb ∧ kb.length = 32 := by
  refine ⟨fun hz => ?_, fun k hk => ?_, ?_⟩
  · show keyHex params rng = ""
    rw [keyHex, if_neg (by omega)]
  · obtain ⟨ikm, hikm⟩ := Option.isSome_iff_exists.mp hk
    rw [derive_aes_key, hikm]
    rfl
  · refine ⟨hkdfSha256 [] (strBytes s) (strBytes "qtransfer-aes") 32, rfl, ?_⟩
    exact length_hkdfSha256_32 [] (strBytes s) (strBytes "qtransfer-aes")

/-- Witness for C9 at concrete inputs (a negative-qubit request yields
zero sifted bits). -/
theorem spec_claim_C9_empty_key_witness :
    (simulate_bb84_analytic reqNeg rngW).sifted_key = ""
    ∧ (derive_aes_key "0a" "session1").isSome
    ∧ ∃ kb : List Nat, derive_aes_key "" "session1" = some kb ∧ kb.length = 32 :=
  ⟨(spec_claim_C9_empty_key reqNeg rngW "session1").1 (by decide),
   (spec_claim_C9_empty_key reqNeg rngW "session1").2.1 "0a" (by decide),
   (spec_claim_C9_empty_key reqNeg rngW "session1").2.2⟩

/-- C10.  The QKD result endpoint recomputes `eve_detected` from the
stored qber alone as `qber > 0.1` (false when missing), with no
dependence on the eavesdrop fraction — while the simulator itself
reports false whenever `eve_fraction = 0`, whatever its qber.  Hence a
stored session with `eve_fraction = 0` and qber above `0.1` is reported
as `eve_detected = true` by the endpoint, diverging from the
simulator's conjunction. -/
theorem spec_claim_C10_endpoint_divergence :
    (∀ q : ℚ, get_qkd_result_eve_detected (some q) = decide (1 / 10 < q))
    ∧ get_qkd_result_eve_detected none = false
    ∧ (∀ q : ℚ, 1 / 10 < q → get_qkd_result_eve_detected (some q) = true)
    ∧ (∀ (params : QKDRequest) (rng : Rng), params.eve_fraction = 0 →
        (simulate_bb84_analytic params rng).eve_detected = false) := by
  refine ⟨fun q => rfl, rfl, fun q hq => ?_, fun params rng hef => ?_⟩
  · rw [get_qkd_result_eve_detected]
    exact decide_eq_true hq
  · show (decide (0 < params.eve_fraction) && decide (1 / 10 < qberOf params rng)) = false
    rw [hef]
    simp

/-- Witness for C10 at a concrete qber and a concrete eve-free run. -/
theorem spec_claim_C10_endpoint_divergence_witness :
    get_qkd_result_eve_detected (some (1 / 5)) = true
    ∧ (simulate_bb84_analytic reqEveFree rngW).eve_detected = false :=
  ⟨spec_claim_C10_endpoint_divergence.2.2.1 (1 / 5) (by norm_num),
   spec_claim_C10_endpoint_divergence.2.2.2 reqEveFree rngW rfl⟩

end QT
